import Mathlib

/-!
Verification of the hierarchical aggregation engine of the dashboard tool
(`src/tools/dashboard/src/reference.rs`).  Rust strings are embedded as lists
of characters; fallible code (panics, `unwrap`, failed assertions) is embedded
as `Option`-returning functions.  The `dashboard` module (the result tree and
its merge) is not among the sources at hand, so it is modelled from the spec.
-/

namespace RefDashboard

/-- Strings of the Rust source, embedded as lists of characters. -/
abbrev Str := List Char

/-- Modelled from the spec: the node data of the missing `dashboard::Node`
(the spec's ResultTreeNode data): a name and pass/fail counters, as used by
`reference.rs` through `tree.data.num_pass` and `tree.data.num_fail`. -/
structure Node where
  name : Str
  num_pass : Nat
  num_fail : Nat
deriving DecidableEq

/-- Modelled from the spec: the missing `dashboard::Tree`: node data plus an
ordered list of child trees. -/
inductive Tree : Type where
  | mk : Node → List Tree → Tree

/-- Node data at the root of a tree. -/
def Tree.data : Tree → Node
  | .mk d _ => d

/-- Child list at the root of a tree. -/
def Tree.children : Tree → List Tree
  | .mk _ c => c

mutual
/-- Modelled from the spec: the missing `dashboard::Tree::merge`.  Merging is
only defined between trees rooted at the same named node (a name mismatch
fails); the result's counters are the sums of the operands' counters, and the
children are the union of both operands' children matched by name: children
present in only one operand are carried over, children present in both are
merged recursively. -/
def Tree.merge : Tree → Tree → Option Tree
  | Tree.mk da ca, Tree.mk db cb =>
    if da.name = db.name then
      match mergeInto ca cb with
      | some cs =>
          some (Tree.mk ⟨da.name, da.num_pass + db.num_pass, da.num_fail + db.num_fail⟩ cs)
      | none => none
    else
      none
termination_by _ b => (sizeOf b, 0, 0)

/-- Modelled from the spec: fold every tree of the second list into the child
list given first, one at a time. -/
def mergeInto : List Tree → List Tree → Option (List Tree)
  | cs, [] => some cs
  | cs, c :: rest =>
    match insertChild cs c with
    | some cs2 => mergeInto cs2 rest
    | none => none
termination_by _ l => (sizeOf l, 2, 0)

/-- Modelled from the spec: insert one tree into a child list, merging it with
the same-named child when one is present and appending it at the end
otherwise. -/
def insertChild : List Tree → Tree → Option (List Tree)
  | [], c => some [c]
  | c1 :: cs, c =>
    if c1.data.name = c.data.name then
      match Tree.merge c1 c with
      | some m => some (m :: cs)
      | none => none
    else
      match insertChild cs c with
      | some cs2 => some (c1 :: cs2)
      | none => none
termination_by cs c => (sizeOf c, 1, sizeOf cs)
end

/-- Embedding of `tree_from_path` (reference.rs, lines 250-267): builds the
chain of single-child nodes for one test result, leaf named after the last
segment, every node carrying counts `(1,0)` on pass and `(0,1)` on fail; the
empty path trips the assertion, embedded as `none`. -/
def tree_from_path : List Str → Bool → Option Tree
  | [], _ => none
  | [s], result =>
      some (Tree.mk ⟨s, if result then 1 else 0, if result then 0 else 1⟩ [])
  | s :: s2 :: rest, result =>
    match tree_from_path (s2 :: rest) result with
    | some t => some (Tree.mk ⟨s, t.data.num_pass, t.data.num_fail⟩ [t])
    | none => none

/-- Names of the roots of a list of trees, in order. -/
def childNames (l : List Tree) : List Str := l.map (fun t => t.data.name)

/-- Merging trees with distinct root names fails. -/
theorem merge_none_of_ne (a b : Tree) (h : a.data.name ≠ b.data.name) :
    Tree.merge a b = none := by
  cases a with | mk da ca =>
  cases b with | mk db cb =>
  simp only [Tree.data] at h
  simp only [Tree.merge]
  rw [if_neg h]

/-- Shape of a successful merge: the root keeps the first operand's name, the
counters are summed, and the children come from `mergeInto`. -/
theorem merge_some_spec {a b m : Tree} (h : Tree.merge a b = some m) :
    m.data.name = a.data.name ∧
    m.data.num_pass = a.data.num_pass + b.data.num_pass ∧
    m.data.num_fail = a.data.num_fail + b.data.num_fail ∧
    mergeInto a.children b.children = some m.children := by
  cases a with | mk da ca =>
  cases b with | mk db cb =>
  simp only [Tree.merge] at h
  split at h
  · cases hmi : mergeInto ca cb with
    | none => rw [hmi] at h; simp at h
    | some cs =>
      rw [hmi] at h
      simp only [Option.some.injEq] at h
      subst h
      simp [Tree.data, Tree.children, hmi]
  · simp at h

/-- Inserting a tree into a child list succeeds whenever merging with any
same-named tree would succeed. -/
theorem insertChild_isSome (c : Tree)
    (hm : ∀ c1 : Tree, c1.data.name = c.data.name → (Tree.merge c1 c).isSome) :
    ∀ cs : List Tree, (insertChild cs c).isSome := by
  intro cs
  induction cs with
  | nil => simp [insertChild]
  | cons c1 cs ih =>
    simp only [insertChild]
    by_cases h : c1.data.name = c.data.name
    · rw [if_pos h]
      obtain ⟨m, hm2⟩ := Option.isSome_iff_exists.mp (hm c1 h)
      rw [hm2]
      simp
    · rw [if_neg h]
      obtain ⟨cs2, h2⟩ := Option.isSome_iff_exists.mp ih
      rw [h2]
      simp

/-- Folding a list of trees into a child list succeeds whenever merging each of
them with any same-named tree would succeed. -/
theorem mergeInto_isSome (l : List Tree)
    (hm : ∀ c ∈ l, ∀ c1 : Tree, c1.data.name = c.data.name → (Tree.merge c1 c).isSome) :
    ∀ cs, (mergeInto cs l).isSome := by
  induction l with
  | nil => intro cs; simp [mergeInto]
  | cons c rest ih =>
    intro cs
    simp only [mergeInto]
    obtain ⟨cs2, h2⟩ :=
      Option.isSome_iff_exists.mp (insertChild_isSome c (hm c (by simp)) cs)
    rw [h2]
    exact ih (fun x hx => hm x (by simp [hx])) cs2

/-- Auxiliary strong induction on tree size: merging same-named trees
succeeds. -/
theorem merge_isSome_aux : ∀ (n : Nat) (b : Tree), sizeOf b ≤ n →
    ∀ a : Tree, a.data.name = b.data.name → (Tree.merge a b).isSome := by
  intro n
  induction n using Nat.strong_induction_on with
  | _ n ih =>
    intro b hb a hname
    cases b with | mk db cb =>
    cases a with | mk da ca =>
    simp only [Tree.data] at hname
    simp only [Tree.merge]
    rw [if_pos hname]
    have hsome : (mergeInto ca cb).isSome := by
      apply mergeInto_isSome
      intro c hc c1 h1
      have hmem := List.sizeOf_lt_of_mem hc
      have hsz : sizeOf c < sizeOf (Tree.mk db cb) := by
        simp only [Tree.mk.sizeOf_spec]
        omega
      have hn : sizeOf c < n := by
        simp only [Tree.mk.sizeOf_spec] at hb
        omega
      exact ih (sizeOf c) hn c (le_refl _) c1 h1
    obtain ⟨cs, hcs⟩ := Option.isSome_iff_exists.mp hsome
    rw [hcs]
    simp

/-- Merging two trees with the same root name always succeeds. -/
theorem merge_isSome (a b : Tree) (h : a.data.name = b.data.name) :
    (Tree.merge a b).isSome :=
  merge_isSome_aux (sizeOf b) b (le_refl _) a h

/-- Inserting a tree adds its root name to the set of child names. -/
theorem insertChild_names {cs : List Tree} {c : Tree} {cs2 : List Tree}
    (h : insertChild cs c = some cs2) :
    ∀ s, s ∈ childNames cs2 ↔ s ∈ childNames cs ∨ s = c.data.name := by
  induction cs generalizing cs2 with
  | nil =>
    simp only [insertChild, Option.some.injEq] at h
    subst h
    simp [childNames]
  | cons c1 cs ih =>
    simp only [insertChild] at h
    by_cases hn : c1.data.name = c.data.name
    · rw [if_pos hn] at h
      cases hm : Tree.merge c1 c with
      | none => rw [hm] at h; simp at h
      | some m =>
        rw [hm] at h
        simp only [Option.some.injEq] at h
        subst h
        have hname := (merge_some_spec hm).1
        intro s
        simp only [childNames, List.map_cons, List.mem_cons, hname, hn]
        tauto
    · rw [if_neg hn] at h
      cases hi : insertChild cs c with
      | none => rw [hi] at h; simp at h
      | some cs3 =>
        rw [hi] at h
        simp only [Option.some.injEq] at h
        subst h
        intro s
        have hrec := ih hi s
        simp only [childNames, List.map_cons, List.mem_cons] at hrec ⊢
        tauto

/-- Folding a list of trees into a child list unions the child-name sets. -/
theorem mergeInto_names {l cs cs2 : List Tree}
    (h : mergeInto cs l = some cs2) :
    ∀ s, s ∈ childNames cs2 ↔ s ∈ childNames cs ∨ s ∈ childNames l := by
  induction l generalizing cs cs2 with
  | nil =>
    simp only [mergeInto, Option.some.injEq] at h
    subst h
    simp [childNames]
  | cons c rest ih =>
    simp only [mergeInto] at h
    cases hi : insertChild cs c with
    | none => rw [hi] at h; simp at h
    | some csMid =>
      rw [hi] at h
      intro s
      have h1 := insertChild_names hi s
      have h2 := ih h s
      simp only [childNames, List.map_cons, List.mem_cons] at h1 h2 ⊢
      tauto

/-- Child names of a merged tree are the union of the operands' child names. -/
theorem merge_names {a b m : Tree} (h : Tree.merge a b = some m) :
    ∀ s, s ∈ childNames m.children ↔
      s ∈ childNames a.children ∨ s ∈ childNames b.children :=
  mergeInto_names (merge_some_spec h).2.2.2

/-- Aggregated value of `g` over the children of name `n` in a child list. -/
def nameSum (g : Tree → Nat) (n : Str) (l : List Tree) : Nat :=
  ((l.filter (fun t => t.data.name == n)).map g).sum

/-- Unfolding of `nameSum` over a cons cell. -/
theorem nameSum_cons (g : Tree → Nat) (n : Str) (c : Tree) (l : List Tree) :
    nameSum g n (c :: l) =
      (if c.data.name = n then g c else 0) + nameSum g n l := by
  by_cases h : c.data.name = n
  · simp [nameSum, List.filter_cons, h]
  · simp [nameSum, List.filter_cons, h]

/-- Inserting a tree adds its `g`-value to the aggregate of its name and
leaves every other name's aggregate unchanged, for any `g` that merge treats
additively. -/
theorem insertChild_nameSum {g : Tree → Nat}
    (hg : ∀ a b m : Tree, Tree.merge a b = some m → g m = g a + g b)
    {cs : List Tree} {c : Tree} {cs2 : List Tree}
    (h : insertChild cs c = some cs2) (n : Str) :
    nameSum g n cs2 = nameSum g n cs + (if c.data.name = n then g c else 0) := by
  induction cs generalizing cs2 with
  | nil =>
    simp only [insertChild, Option.some.injEq] at h
    subst h
    rw [nameSum_cons]
    simp only [nameSum, List.filter_nil, List.map_nil, List.sum_nil]
    omega
  | cons c1 cs ih =>
    simp only [insertChild] at h
    by_cases hn : c1.data.name = c.data.name
    · rw [if_pos hn] at h
      cases hm : Tree.merge c1 c with
      | none => rw [hm] at h; simp at h
      | some m =>
        rw [hm] at h
        simp only [Option.some.injEq] at h
        subst h
        have hname := (merge_some_spec hm).1
        have hadd := hg c1 c m hm
        rw [nameSum_cons, nameSum_cons, hname, hn]
        by_cases hcn : c.data.name = n
        · simp only [if_pos hcn]
          rw [hadd]
          omega
        · simp only [if_neg hcn]
          omega
    · rw [if_neg hn] at h
      cases hi : insertChild cs c with
      | none => rw [hi] at h; simp at h
      | some cs3 =>
        rw [hi] at h
        simp only [Option.some.injEq] at h
        subst h
        rw [nameSum_cons, nameSum_cons, ih hi]
        omega

/-- Folding a child list into another adds the per-name aggregates, for any
`g` that merge treats additively. -/
theorem mergeInto_nameSum {g : Tree → Nat}
    (hg : ∀ a b m : Tree, Tree.merge a b = some m → g m = g a + g b)
    {l cs cs2 : List Tree} (h : mergeInto cs l = some cs2) (n : Str) :
    nameSum g n cs2 = nameSum g n cs + nameSum g n l := by
  induction l generalizing cs cs2 with
  | nil =>
    simp only [mergeInto, Option.some.injEq] at h
    subst h
    simp [nameSum]
  | cons c rest ih =>
    simp only [mergeInto] at h
    cases hi : insertChild cs c with
    | none => rw [hi] at h; simp at h
    | some csMid =>
      rw [hi] at h
      rw [ih h, insertChild_nameSum hg hi n, nameSum_cons]
      omega

/-- Merge is additive on the root pass counter. -/
theorem merge_pass_additive (a b m : Tree) (h : Tree.merge a b = some m) :
    m.data.num_pass = a.data.num_pass + b.data.num_pass :=
  (merge_some_spec h).2.1

/-- Merge is additive on the root fail counter. -/
theorem merge_fail_additive (a b m : Tree) (h : Tree.merge a b = some m) :
    m.data.num_fail = a.data.num_fail + b.data.num_fail :=
  (merge_some_spec h).2.2.1

/-- Per-name aggregated child counters of a merged tree are the sums of the
operands' per-name aggregated child counters. -/
theorem merge_nameSum {g : Tree → Nat}
    (hg : ∀ a b m : Tree, Tree.merge a b = some m → g m = g a + g b)
    {a b m : Tree} (h : Tree.merge a b = some m) (n : Str) :
    nameSum g n m.children = nameSum g n a.children + nameSum g n b.children :=
  mergeInto_nameSum hg (merge_some_spec h).2.2.2 n

/-- Claim C1: for result trees `a`, `b`, `c` sharing a root name, all the
merges succeed; `merge a b` carries pass/fail counts that are the sums of the
operands' counts; `merge a b` and `merge b a` agree in total counts and in the
set of children (same child-name set, and per name the same aggregated child
pass/fail counts); and `merge (merge a b) c` and `merge a (merge b c)` agree
in total counts. -/
theorem merge_comm_assoc_counts (a b c : Tree)
    (hab : a.data.name = b.data.name) (hbc : b.data.name = c.data.name) :
    ∃ ab ba bc ab_c a_bc : Tree,
      Tree.merge a b = some ab ∧ Tree.merge b a = some ba ∧
      Tree.merge b c = some bc ∧ Tree.merge ab c = some ab_c ∧
      Tree.merge a bc = some a_bc ∧
      ab.data.num_pass = a.data.num_pass + b.data.num_pass ∧
      ab.data.num_fail = a.data.num_fail + b.data.num_fail ∧
      ba.data.num_pass = ab.data.num_pass ∧
      ba.data.num_fail = ab.data.num_fail ∧
      (∀ s, s ∈ childNames ab.children ↔ s ∈ childNames ba.children) ∧
      (∀ s, nameSum (fun t => t.data.num_pass) s ab.children =
            nameSum (fun t => t.data.num_pass) s ba.children) ∧
      (∀ s, nameSum (fun t => t.data.num_fail) s ab.children =
            nameSum (fun t => t.data.num_fail) s ba.children) ∧
      ab_c.data.num_pass = a_bc.data.num_pass ∧
      ab_c.data.num_fail = a_bc.data.num_fail := by
  obtain ⟨ab, h_ab⟩ := Option.isSome_iff_exists.mp (merge_isSome a b hab)
  obtain ⟨ba, h_ba⟩ := Option.isSome_iff_exists.mp (merge_isSome b a hab.symm)
  obtain ⟨bc, h_bc⟩ := Option.isSome_iff_exists.mp (merge_isSome b c hbc)
  obtain ⟨hab_name, hab_pass, hab_fail, -⟩ := merge_some_spec h_ab
  obtain ⟨hba_name, hba_pass, hba_fail, -⟩ := merge_some_spec h_ba
  obtain ⟨hbc_name, hbc_pass, hbc_fail, -⟩ := merge_some_spec h_bc
  obtain ⟨ab_c, h_ab_c⟩ := Option.isSome_iff_exists.mp
    (merge_isSome ab c (by rw [hab_name, hab, hbc]))
  obtain ⟨a_bc, h_a_bc⟩ := Option.isSome_iff_exists.mp
    (merge_isSome a bc (by rw [hbc_name, hab]))
  obtain ⟨-, habc_pass, habc_fail, -⟩ := merge_some_spec h_ab_c
  obtain ⟨-, habc2_pass, habc2_fail, -⟩ := merge_some_spec h_a_bc
  refine ⟨ab, ba, bc, ab_c, a_bc, h_ab, h_ba, h_bc, h_ab_c, h_a_bc, hab_pass,
    hab_fail, ?_, ?_, ?_, ?_, ?_, ?_, ?_⟩
  · rw [hba_pass, hab_pass, Nat.add_comm]
  · rw [hba_fail, hab_fail, Nat.add_comm]
  · intro s
    rw [merge_names h_ab s, merge_names h_ba s]
    tauto
  · intro s
    rw [merge_nameSum merge_pass_additive h_ab s,
      merge_nameSum merge_pass_additive h_ba s, Nat.add_comm]
  · intro s
    rw [merge_nameSum merge_fail_additive h_ab s,
      merge_nameSum merge_fail_additive h_ba s, Nat.add_comm]
  · rw [habc_pass, habc2_pass, hab_pass, hbc_pass, Nat.add_assoc]
  · rw [habc_fail, habc2_fail, hab_fail, hbc_fail, Nat.add_assoc]

/-- Witness for claim C1 at concrete trees. -/
theorem merge_comm_assoc_counts_witness :
    (Tree.mk ⟨['r'], 1, 0⟩ [Tree.mk ⟨['x'], 1, 0⟩ []]).data.name =
      (Tree.mk ⟨['r'], 0, 1⟩ [Tree.mk ⟨['y'], 0, 1⟩ []]).data.name ∧
    (Tree.mk ⟨['r'], 0, 1⟩ [Tree.mk ⟨['y'], 0, 1⟩ []]).data.name =
      (Tree.mk ⟨['r'], 2, 3⟩ [Tree.mk ⟨['x'], 2, 3⟩ []]).data.name ∧
    (∃ ab ba bc ab_c a_bc : Tree,
      Tree.merge (Tree.mk ⟨['r'], 1, 0⟩ [Tree.mk ⟨['x'], 1, 0⟩ []])
        (Tree.mk ⟨['r'], 0, 1⟩ [Tree.mk ⟨['y'], 0, 1⟩ []]) = some ab ∧
      Tree.merge (Tree.mk ⟨['r'], 0, 1⟩ [Tree.mk ⟨['y'], 0, 1⟩ []])
        (Tree.mk ⟨['r'], 1, 0⟩ [Tree.mk ⟨['x'], 1, 0⟩ []]) = some ba ∧
      Tree.merge (Tree.mk ⟨['r'], 0, 1⟩ [Tree.mk ⟨['y'], 0, 1⟩ []])
        (Tree.mk ⟨['r'], 2, 3⟩ [Tree.mk ⟨['x'], 2, 3⟩ []]) = some bc ∧
      Tree.merge ab (Tree.mk ⟨['r'], 2, 3⟩ [Tree.mk ⟨['x'], 2, 3⟩ []]) = some ab_c ∧
      Tree.merge (Tree.mk ⟨['r'], 1, 0⟩ [Tree.mk ⟨['x'], 1, 0⟩ []]) bc = some a_bc ∧
      ab.data.num_pass =
        (Tree.mk ⟨['r'], 1, 0⟩ [Tree.mk ⟨['x'], 1, 0⟩ []]).data.num_pass +
          (Tree.mk ⟨['r'], 0, 1⟩ [Tree.mk ⟨['y'], 0, 1⟩ []]).data.num_pass ∧
      ab.data.num_fail =
        (Tree.mk ⟨['r'], 1, 0⟩ [Tree.mk ⟨['x'], 1, 0⟩ []]).data.num_fail +
          (Tree.mk ⟨['r'], 0, 1⟩ [Tree.mk ⟨['y'], 0, 1⟩ []]).data.num_fail ∧
      ba.data.num_pass = ab.data.num_pass ∧
      ba.data.num_fail = ab.data.num_fail ∧
      (∀ s, s ∈ childNames ab.children ↔ s ∈ childNames ba.children) ∧
      (∀ s, nameSum (fun t => t.data.num_pass) s ab.children =
            nameSum (fun t => t.data.num_pass) s ba.children) ∧
      (∀ s, nameSum (fun t => t.data.num_fail) s ab.children =
            nameSum (fun t => t.data.num_fail) s ba.children) ∧
      ab_c.data.num_pass = a_bc.data.num_pass ∧
      ab_c.data.num_fail = a_bc.data.num_fail) :=
  ⟨rfl, rfl,
    merge_comm_assoc_counts
      (Tree.mk ⟨['r'], 1, 0⟩ [Tree.mk ⟨['x'], 1, 0⟩ []])
      (Tree.mk ⟨['r'], 0, 1⟩ [Tree.mk ⟨['y'], 0, 1⟩ []])
      (Tree.mk ⟨['r'], 2, 3⟩ [Tree.mk ⟨['x'], 2, 3⟩ []]) rfl rfl⟩

/-- Claim C5: merging two trees whose root names differ signals a name
mismatch (embedded as `none`) instead of returning a merged tree. -/
theorem merge_fails_on_name_mismatch (a b : Tree)
    (h : a.data.name ≠ b.data.name) : Tree.merge a b = none :=
  merge_none_of_ne a b h

/-- Witness for claim C5 at concrete trees. -/
theorem merge_fails_on_name_mismatch_witness :
    (Tree.mk ⟨['a'], 1, 0⟩ []).data.name ≠ (Tree.mk ⟨['b'], 0, 1⟩ []).data.name ∧
    Tree.merge (Tree.mk ⟨['a'], 1, 0⟩ []) (Tree.mk ⟨['b'], 0, 1⟩ []) = none :=
  ⟨by decide,
    merge_fails_on_name_mismatch (Tree.mk ⟨['a'], 1, 0⟩ [])
      (Tree.mk ⟨['b'], 0, 1⟩ []) (by decide)⟩

/-- Chain test: the tree is a chain of single-child nodes ending in a leaf. -/
def Tree.chainOk : Tree → Bool
  | .mk _ [] => true
  | .mk _ [c] => Tree.chainOk c
  | .mk _ _ => false

/-- Names along a chain, outermost root first (stops at any branching). -/
def Tree.spine : Tree → List Str
  | .mk d [] => [d.name]
  | .mk d [c] => d.name :: Tree.spine c
  | .mk d _ => [d.name]

/-- Counter test along a chain: every node carries exactly the counts
`(p, f)`. -/
def Tree.countsAll (p f : Nat) : Tree → Bool
  | .mk d [] => d.num_pass == p && d.num_fail == f
  | .mk d [c] => d.num_pass == p && d.num_fail == f && Tree.countsAll p f c
  | .mk _ _ => false

/-- Root counters of a tree satisfying `countsAll`. -/
theorem countsAll_root {p f : Nat} {t : Tree} (h : Tree.countsAll p f t = true) :
    t.data.num_pass = p ∧ t.data.num_fail = f := by
  cases t with | mk d c =>
  match c with
  | [] =>
    simp only [Tree.countsAll, Bool.and_eq_true, beq_iff_eq] at h
    exact ⟨h.1, h.2⟩
  | [c1] =>
    simp only [Tree.countsAll, Bool.and_eq_true, beq_iff_eq] at h
    exact ⟨h.1.1, h.1.2⟩
  | c1 :: c2 :: rest =>
    simp [Tree.countsAll] at h

/-- Claim C2: for every non-empty segment list `s` and boolean `p`,
`tree_from_path s p` returns a chain of single-child nodes whose node names
from the root down to the leaf are exactly the segments of `s` in order (hence
of depth `length s`), and every node carries counts `(1,0)` if `p` is true and
`(0,1)` otherwise. -/
theorem tree_from_path_chain (s : List Str) (p : Bool) (h : s ≠ []) :
    ∃ t : Tree, tree_from_path s p = some t ∧
      Tree.chainOk t = true ∧
      Tree.spine t = s ∧
      (Tree.spine t).length = s.length ∧
      Tree.countsAll (if p then 1 else 0) (if p then 0 else 1) t = true := by
  induction s with
  | nil => exact absurd rfl h
  | cons x xs ih =>
    match xs with
    | [] =>
      refine ⟨Tree.mk ⟨x, if p then 1 else 0, if p then 0 else 1⟩ [], rfl, rfl, rfl, rfl, ?_⟩
      simp [Tree.countsAll]
    | y :: ys =>
      obtain ⟨t, ht, hchain, hspine, -, hcounts⟩ := ih (by simp)
      have hroot := countsAll_root hcounts
      refine ⟨Tree.mk ⟨x, t.data.num_pass, t.data.num_fail⟩ [t], ?_, ?_, ?_, ?_, ?_⟩
      · simp only [tree_from_path, ht]
      · simpa [Tree.chainOk] using hchain
      · simp [Tree.spine, hspine]
      · simp [Tree.spine, hspine]
      · simp only [Tree.countsAll, Bool.and_eq_true, beq_iff_eq]
        exact ⟨⟨hroot.1, hroot.2⟩, hcounts⟩

/-- Witness for claim C2 at a concrete two-segment path. -/
theorem tree_from_path_chain_witness :
    (['a'] :: [['b']] : List Str) ≠ [] ∧
    ∃ t : Tree, tree_from_path (['a'] :: [['b']]) true = some t ∧
      Tree.chainOk t = true ∧
      Tree.spine t = ['a'] :: [['b']] ∧
      (Tree.spine t).length = (['a'] :: [['b']] : List Str).length ∧
      Tree.countsAll (if true then 1 else 0) (if true then 0 else 1) t = true :=
  ⟨by decide, tree_from_path_chain (['a'] :: [['b']]) true (by decide)⟩

/-- Embedding of Rust `str::split` with a set of separator characters given by
a predicate: adjacent separators and separators at either end yield empty
pieces, and the split of the empty string is one empty piece. -/
def splitChars (p : Char → Bool) : Str → List Str
  | [] => [[]]
  | c :: cs =>
    if p c then [] :: splitChars p cs
    else
      match splitChars p cs with
      | [] => [[c]]
      | r :: rs => (c :: r) :: rs

/-- Embedding of Rust `str::split` with a string separator: split on each
leftmost non-overlapping occurrence of `sep`. -/
def splitOnSub (sep : Str) : Str → List Str
  | [] => [[]]
  | c :: cs =>
    if h : sep ≠ [] ∧ sep.isPrefixOf (c :: cs) then
      [] :: splitOnSub sep ((c :: cs).drop sep.length)
    else
      match splitOnSub sep cs with
      | [] => [[c]]
      | r :: rs => (c :: r) :: rs
termination_by s => s.length
decreasing_by
  · have hlen : 0 < sep.length := List.length_pos.mpr h.1
    simp only [List.length_drop, List.length_cons]
    omega
  · simp

/-- Embedding of Rust `str::contains` with a string pattern: some contiguous
substring equals the pattern. -/
def containsSub (pat s : Str) : Bool := s.tails.any (fun t => pat.isPrefixOf t)

/-- Separator of the `compiletest` log format, the string literal
`" [rmc] "`. -/
def rmcSep : Str := [' ', '[', 'r', 'm', 'c', ']', ' ']

/-- Separator set of the path part of a log line: `/` and `.`. -/
def isPathSep (c : Char) : Bool := c == '/' || c == '.'

/-- Embedding of `parse_log_line` (reference.rs, lines 284-293): split the line
on `" [rmc] "`, compare the left part with `"ok"` for the outcome, split the
right part on `/` and `.` and drop the final segment; a line without the
separator panics on the index `splits[1]` (`none`). -/
def parse_log_line (line : Str) : Option (List Str × Bool) :=
  match splitOnSub rmcSep line with
  | s0 :: s1 :: _ => some ((splitChars isPathSep s1).dropLast, s0 == ('o' :: ['k']))
  | _ => none

/-- Splitting a string that contains no occurrence of the log separator yields
the string as the only piece. -/
theorem splitOnSub_no_sep {s : Str} (h : containsSub rmcSep s = false) :
    splitOnSub rmcSep s = [s] := by
  induction s with
  | nil => simp [splitOnSub]
  | cons c cs ih =>
    simp only [containsSub, List.tails_cons, List.any_cons, Bool.or_eq_false_iff] at h
    rw [splitOnSub]
    rw [dif_neg ?hneg]
    case hneg =>
      rintro ⟨-, hpre⟩
      rw [h.1] at hpre
      exact Bool.false_ne_true hpre
    rw [ih (by simp only [containsSub]; exact h.2)]

/-- Splitting `a ++ " [rmc] " ++ b` on the log separator peels off `a` when
`a` contains no space. -/
theorem splitOnSub_boundary {a : Str} (b : Str) (ha : ∀ c ∈ a, c ≠ ' ') :
    splitOnSub rmcSep (a ++ rmcSep ++ b) = a :: splitOnSub rmcSep b := by
  induction a with
  | nil =>
    have hshape : ([] : Str) ++ rmcSep ++ b =
        ' ' :: (['[', 'r', 'm', 'c', ']', ' '] ++ b) := by simp [rmcSep]
    rw [hshape, splitOnSub]
    rw [dif_pos ?hpos]
    case hpos =>
      refine ⟨by simp [rmcSep], ?_⟩
      exact List.isPrefixOf_iff_prefix.mpr ⟨b, by simp [rmcSep]⟩
    have hdrop : (' ' :: (['[', 'r', 'm', 'c', ']', ' '] ++ b)).drop rmcSep.length = b := by
      simp [rmcSep]
    rw [hdrop]
  | cons c a' ih =>
    have hc : c ≠ ' ' := ha c (by simp)
    have hshape : (c :: a') ++ rmcSep ++ b = c :: (a' ++ rmcSep ++ b) := by simp
    rw [hshape, splitOnSub]
    rw [dif_neg ?hneg2]
    case hneg2 =>
      rintro ⟨-, hpre⟩
      have hp := List.isPrefixOf_iff_prefix.mp hpre
      rw [rmcSep, List.cons_prefix_cons] at hp
      exact hc hp.1.symm
    rw [ih (fun x hx => ha x (by simp [hx]))]

/-- Claim C3: on a log line made of a space-free status token, the fixed
separator `" [rmc] "`, and a path containing no occurrence of the separator
(spaces inside segment names are allowed), `parse_log_line` reports a pass
exactly when the status token is `"ok"` and returns the path split on `/` and
`.` with the final segment dropped. -/
theorem parse_log_line_spec (status path : Str)
    (hs : ∀ c ∈ status, c ≠ ' ') (hp : containsSub rmcSep path = false) :
    ∃ r : List Str × Bool,
      parse_log_line (status ++ rmcSep ++ path) = some r ∧
      (r.2 = true ↔ status = 'o' :: ['k']) ∧
      r.1 = (splitChars isPathSep path).dropLast := by
  refine ⟨((splitChars isPathSep path).dropLast, status == ('o' :: ['k'])), ?_, ?_, rfl⟩
  · simp only [parse_log_line, splitOnSub_boundary path hs, splitOnSub_no_sep hp]
  · simp

/-- Witness for claim C3 on the line `FAILED [rmc] ref/Loop expressions/133.rs`,
whose path contains a space inside a segment name. -/
theorem parse_log_line_spec_witness :
    (∀ c ∈ ("FAILED").data, c ≠ ' ') ∧
    containsSub rmcSep (("ref/Loop expressions/133.rs").data) = false ∧
    ∃ r : List Str × Bool,
      parse_log_line (("FAILED").data ++ rmcSep ++
        ("ref/Loop expressions/133.rs").data) = some r ∧
      (r.2 = true ↔ ("FAILED").data = 'o' :: ['k']) ∧
      r.1 = (splitChars isPathSep (("ref/Loop expressions/133.rs").data)).dropLast :=
  ⟨by decide, by decide,
    parse_log_line_spec (("FAILED").data) (("ref/Loop expressions/133.rs").data)
      (by decide) (by decide)⟩

/-- Embedding of `prepend_text` (reference.rs, lines 155-159): the file
contents become the directive text, one newline, then the previous contents
(`format!("{}\n{}", text, code)`). -/
def prepend_text (text code : Str) : Str := text ++ '\n' :: code

/-- Embedding of the marker-driven pass of `preprocess_examples` (reference.rs,
lines 165-185) on one example: the origin line decides which directives are
prepended to the extracted code, edition first, then the check-failure
directive, then the verify-failure directive. -/
def process_line (line code : Str) : Str :=
  let code1 :=
    if containsSub ("edition2015").data line then
      prepend_text ("// compile-flags: --edition 2015").data code
    else
      prepend_text ("// compile-flags: --edition 2018").data code
  let code2 :=
    if containsSub ("compile_fail").data line then
      prepend_text ("// rmc-check-fail").data code1
    else code1
  if containsSub ("should_panic").data line then
    prepend_text ("// rmc-verify-fail").data code2
  else code2

/-- Claim C9: `prepend_text` yields the directive, one newline, then the
previous contents verbatim; hence the previous contents are a suffix of the
result, and any sequence of prepends keeps the original contents as an
unchanged suffix. -/
theorem prepend_text_preserves (text code : Str) :
    prepend_text text code = text ++ '\n' :: code ∧
    code <:+ prepend_text text code ∧
    ∀ ts : List Str, code <:+ ts.foldl (fun acc t => prepend_text t acc) code := by
  have key : ∀ (ts : List Str) (c : Str),
      c <:+ ts.foldl (fun acc t => prepend_text t acc) c := by
    intro ts
    induction ts with
    | nil => intro c; exact List.suffix_rfl
    | cons t ts ih =>
      intro c
      have h1 : c <:+ prepend_text t c := ⟨t ++ ['\n'], by simp [prepend_text]⟩
      exact h1.trans (ih (prepend_text t c))
  exact ⟨rfl, ⟨text ++ ['\n'], by simp [prepend_text]⟩, fun ts => key ts code⟩

/-- Counterexample to claim C7 as stated: an origin line containing the
legacy-edition marker and the compile-failure marker, and additionally the
runtime-panic marker, receives three prepended directives, not exactly two. -/
theorem process_line_not_always_two :
    containsSub ("edition2015").data ("edition2015,compile_fail,should_panic").data = true ∧
    containsSub ("compile_fail").data ("edition2015,compile_fail,should_panic").data = true ∧
    process_line ("edition2015,compile_fail,should_panic").data [] =
      ("// rmc-verify-fail").data ++ '\n' ::
        (("// rmc-check-fail").data ++ '\n' ::
          (("// compile-flags: --edition 2015").data ++ '\n' :: [])) ∧
    process_line ("edition2015,compile_fail,should_panic").data [] ≠
      ("// rmc-check-fail").data ++ '\n' ::
        (("// compile-flags: --edition 2015").data ++ '\n' :: []) := by
  refine ⟨by decide, by decide, by decide, by decide⟩

/-- Claim C7 (amended): when the origin line contains the legacy-edition
marker and the compile-failure marker and not the runtime-panic marker,
exactly two directive lines are prepended, with the compile-failure directive
before the edition directive in the final file order. -/
theorem process_line_two_directives (line code : Str)
    (h1 : containsSub ("edition2015").data line = true)
    (h2 : containsSub ("compile_fail").data line = true)
    (h3 : containsSub ("should_panic").data line = false) :
    process_line line code =
      ("// rmc-check-fail").data ++ '\n' ::
        (("// compile-flags: --edition 2015").data ++ '\n' :: code) := by
  simp [process_line, prepend_text, h1, h2, h3]

/-- Witness for the amended claim C7 at a concrete origin line. -/
theorem process_line_two_directives_witness :
    containsSub ("edition2015").data ("edition2015,compile_fail").data = true ∧
    containsSub ("compile_fail").data ("edition2015,compile_fail").data = true ∧
    containsSub ("should_panic").data ("edition2015,compile_fail").data = false ∧
    process_line ("edition2015,compile_fail").data [] =
      ("// rmc-check-fail").data ++ '\n' ::
        (("// compile-flags: --edition 2015").data ++ '\n' :: []) :=
  ⟨by decide, by decide, by decide,
    process_line_two_directives ("edition2015,compile_fail").data []
      (by decide) (by decide) (by decide)⟩

/-- First occurrence split on a separator character: the part before the first
occurrence and the part after it, or `none` when the character is absent. -/
def splitFirst (sep : Char) : Str → Option (Str × Str)
  | [] => none
  | c :: cs =>
    if c = sep then some ([], cs)
    else
      match splitFirst sep cs with
      | some (a, b) => some (c :: a, b)
      | none => none

/-- Embedding of Rust `str::splitn(n, sep)`: split from the left on `sep` into
at most `n` pieces, the last piece keeping the remainder unsplit. -/
def splitn : Nat → Char → Str → List Str
  | 0, _, _ => []
  | 1, _, s => [s]
  | n + 2, sep, s =>
    match splitFirst sep s with
    | none => [s]
    | some (a, b) => a :: splitn (n + 1) sep b

/-- Embedding of Rust `str::rsplitn(n, sep)`: like `splitn` but splitting from
the right, yielding the rightmost pieces first. -/
def rsplitn (n : Nat) (sep : Char) (s : Str) : List Str :=
  (splitn n sep s.reverse).map List.reverse

/-- Embedding of `str::parse::<usize>` on plain digit strings: a non-empty
all-digit string parses to its decimal value, anything else fails. -/
def parseNat? (s : Str) : Option Nat :=
  if s ≠ [] ∧ s.all Char.isDigit then
    some (s.foldl (fun n c => n * 10 + (c.toNat - 48)) 0)
  else none

/-- Embedding of the `Example` structure (reference.rs, lines 64-78): origin
path (as path segments) and line number of one extracted example. -/
structure Example where
  path : List Str
  line : Nat
deriving DecidableEq

/-- One immediate subdirectory of the extraction scratch directory: its name
and the files inside; this models the directory tree the external `rustdoc`
invocation deposits, which `extract` then enumerates. -/
structure ScratchDir where
  dirName : Str
  entries : List Str
deriving DecidableEq

/-- Embedding of the directory loop of `extract` (reference.rs, lines
128-148): subdirectories with no entries are skipped; for each non-empty
subdirectory the line number is parsed from `rsplitn(3, '_')` field 1 of its
name, and the pair (Example, `par_to/<line>.rs`) is recorded; a missing field
or a failed number parse panics (`none`). -/
def extract (par_from par_to : List Str) : List ScratchDir → Option (List (Example × List Str))
  | [] => some []
  | d :: ds =>
    match d.entries with
    | [] => extract par_from par_to ds
    | _ :: _ =>
      match rsplitn 3 '_' d.dirName with
      | _ :: s1 :: _ =>
        match parseNat? s1 with
        | some line =>
          match extract par_from par_to ds with
          | some rest =>
              some ((⟨par_from, line⟩, par_to ++ [(Nat.repr line).data ++ (".rs").data]) :: rest)
          | none => none
        | none => none
      | _ => none

/-- Claim C6: a scratch directory holding one subdirectory `chapter_md_12_0`
with one file inside, next to one subdirectory with no entries, yields exactly
one example pair, with line 12 and destination `<dest>/12.rs`; the empty
subdirectory is skipped without error. -/
theorem extract_locates_example (pf dest : List Str) :
    extract pf dest
      [⟨("chapter_md_12_0").data, [("rust_out").data]⟩,
       ⟨("ignored_md_3_0").data, []⟩] =
      some [(⟨pf, 12⟩, dest ++ [("12.rs").data])] := rfl

/-- Splitting at the first occurrence of an absent-in-prefix separator. -/
theorem splitFirst_append {sep : Char} {a : Str} (b : Str) (h : sep ∉ a) :
    splitFirst sep (a ++ sep :: b) = some (a, b) := by
  induction a with
  | nil => simp [splitFirst]
  | cons c a' ih =>
    have hc : c ≠ sep := fun e => h (by simp [e])
    have ih2 := ih (fun hm => h (by simp [hm]))
    simp only [List.cons_append, splitFirst, List.append_eq, if_neg hc, ih2]

/-- Splitting `<id>_<ds>_<seq>` from the right when `ds` and `seq` contain no
underscore isolates the three fields even when `id` contains underscores. -/
theorem rsplitn_three {ds seq : Str} (id : Str)
    (hds : '_' ∉ ds) (hseq : '_' ∉ seq) :
    rsplitn 3 '_' (id ++ '_' :: ds ++ '_' :: seq) = [seq, ds, id] := by
  have hrev : (id ++ '_' :: ds ++ '_' :: seq).reverse =
      seq.reverse ++ '_' :: (ds.reverse ++ '_' :: id.reverse) := by
    simp
  have e1 : splitFirst '_' (seq.reverse ++ '_' :: (ds.reverse ++ '_' :: id.reverse)) =
      some (seq.reverse, ds.reverse ++ '_' :: id.reverse) :=
    splitFirst_append _ (by simpa using hseq)
  have e2 : splitFirst '_' (ds.reverse ++ '_' :: id.reverse) =
      some (ds.reverse, id.reverse) :=
    splitFirst_append _ (by simpa using hds)
  have e3 : splitn 3 '_' (seq.reverse ++ '_' :: (ds.reverse ++ '_' :: id.reverse)) =
      [seq.reverse, ds.reverse, id.reverse] := by
    show (match splitFirst '_' (seq.reverse ++ '_' :: (ds.reverse ++ '_' :: id.reverse)) with
      | none => [seq.reverse ++ '_' :: (ds.reverse ++ '_' :: id.reverse)]
      | some (a, b) => a :: splitn 2 '_' b) = [seq.reverse, ds.reverse, id.reverse]
    rw [e1]
    show seq.reverse :: (match splitFirst '_' (ds.reverse ++ '_' :: id.reverse) with
      | none => [ds.reverse ++ '_' :: id.reverse]
      | some (a, b) => a :: splitn 1 '_' b) = [seq.reverse, ds.reverse, id.reverse]
    rw [e2]
    rfl
  rw [rsplitn, hrev, e3]
  simp

/-- Claim C10: for a scratch subdirectory named `<id>_<ds>_<seq>` whose `<id>`
may itself contain underscores, `extract` parses the line number from the
second-from-last underscore-separated field `<ds>` (splitting from the right),
so underscores inside `<id>` never corrupt the parsed line number. -/
theorem extract_parses_line_from_right (pf : List Str) (dest id ds seq f : Str)
    (hseq : '_' ∉ seq) (hne : ds ≠ []) (hdig : ds.all Char.isDigit = true) :
    ∃ n : Nat, parseNat? ds = some n ∧
      extract pf [dest] [⟨id ++ '_' :: ds ++ '_' :: seq, [f]⟩] =
        some [(⟨pf, n⟩, [dest] ++ [(Nat.repr n).data ++ (".rs").data])] := by
  have hds : '_' ∉ ds := by
    intro hm
    have := List.all_eq_true.mp hdig '_' hm
    simp [Char.isDigit] at this
  refine ⟨ds.foldl (fun n c => n * 10 + (c.toNat - 48)) 0, ?_, ?_⟩
  · rw [parseNat?, if_pos ⟨hne, hdig⟩]
  · simp only [extract, rsplitn_three id hds hseq]
    rw [parseNat?, if_pos ⟨hne, hdig⟩]

/-- Witness for claim C10 at the directory name `a_b_c_7_0`. -/
theorem extract_parses_line_from_right_witness :
    ('_' ∉ (['0'] : Str)) ∧ (['7'] : Str) ≠ [] ∧ (['7'] : Str).all Char.isDigit = true ∧
    ∃ n : Nat, parseNat? ['7'] = some n ∧
      extract [("ch").data] [("dest").data]
          [⟨("a_b_c").data ++ '_' :: ['7'] ++ '_' :: ['0'], [("rust_out").data]⟩] =
        some [(⟨[("ch").data], n⟩, [("dest").data] ++ [(Nat.repr n).data ++ (".rs").data])] :=
  ⟨by decide, by decide, by decide,
    extract_parses_line_from_right [("ch").data] ("dest").data ("a_b_c").data
      ['7'] ['0'] ("rust_out").data (by decide) (by decide) (by decide)⟩

/-- Modelled from the spec: the structural event stream produced by the
external markdown parser (`pulldown_cmark`) as consumed by `parse_hierarchy`:
item-close, link-close (carrying the link target), text, and every other
event. -/
inductive MdEvent where
  | endItem : MdEvent
  | endLink : Str → MdEvent
  | text : Str → MdEvent
  | other : MdEvent
deriving DecidableEq

/-- Association-list embedding of `HashMap::insert`: replace the entry with
the same key or append a new entry. -/
def mapInsert (k v : List Str) : List (List Str × List Str) → List (List Str × List Str)
  | [] => [(k, v)]
  | (k1, v1) :: rest =>
      if k1 = k then (k, v) :: rest else (k1, v1) :: mapInsert k v rest

/-- Association-list embedding of map lookup. -/
def mapLookup (k : List Str) : List (List Str × List Str) → Option (List Str)
  | [] => none
  | (k1, v1) :: rest => if k1 = k then some v1 else mapLookup k rest

/-- Embedding of the event-loop body of `parse_hierarchy` (reference.rs, lines
37-59): item-close pops the hierarchy stack, link-close records the link
target (joined to the summary directory and split on `/`) mapped to a copy of
the current hierarchy, text pushes a segment, everything else is ignored. -/
def hierStep (summary_dir : List Str) :
    List Str × List (List Str × List Str) → MdEvent → List Str × List (List Str × List Str)
  | (hier, m), MdEvent.endItem => (hier.dropLast, m)
  | (hier, m), MdEvent.endLink path =>
      (hier, mapInsert (summary_dir ++ splitChars (fun c => c == '/') path) hier m)
  | (hier, m), MdEvent.text t => (hier ++ [t], m)
  | (hier, m), MdEvent.other => (hier, m)

/-- Expected fixed opening of the summary file (reference.rs, line 26). -/
def expected_start : Str := ("# The Rust Reference\n\n[Introduction](introduction.md)").data

/-- Root of the hierarchy paths set by the source (reference.rs, line 33): the
directory path `src/test/ref`. -/
def hierRoot : List Str := [("src").data, ("test").data, ("ref").data]

/-- Embedding of `parse_hierarchy` (reference.rs, lines 24-61).  The external
markdown parser is out of scope, so the structural event stream that remains
after skipping the title and the introduction link is taken as an input, as
the spec describes the walk; the failed `starts_with` assertion on the raw
summary text is embedded as `none`, and the introduction mapping is inserted
before the walk. -/
def parse_hierarchy (summary : Str) (summary_dir : List Str) (events : List MdEvent) :
    Option (List (List Str × List Str)) :=
  if expected_start.isPrefixOf summary then
    some (events.foldl (hierStep summary_dir)
      (hierRoot,
        mapInsert (summary_dir ++ [("introduction.md").data])
          (hierRoot ++ [("Introduction").data]) [])).2
  else none

/-- Lookup of a key in the optional map an aborted or completed hierarchy walk
returns. -/
def lookupIn (k : List Str) : Option (List (List Str × List Str)) → Option (List Str)
  | some m => mapLookup k m
  | none => none

/-- Summary document of claim C4: the fixed opening, then one nested item
`- [A](a.md)` containing one sub-item `- [B](b.md)`. -/
def c4Summary : Str := expected_start ++ ("\n\n- [A](a.md)\n  - [B](b.md)\n").data

/-- Modelled from the spec: the post-skip structural event stream the external
markdown parser yields for `c4Summary`: list-open, item-open, link-open, the
link text and link-close for `A`, then the nested list for `B`, then the
item-closes and list-closes. -/
def c4Events : List MdEvent :=
  [MdEvent.other, MdEvent.other, MdEvent.other,
   MdEvent.text (("A").data), MdEvent.endLink (("a.md").data),
   MdEvent.other, MdEvent.other, MdEvent.other,
   MdEvent.text (("B").data), MdEvent.endLink (("b.md").data),
   MdEvent.endItem, MdEvent.other,
   MdEvent.endItem, MdEvent.other]

/-- Counterexample to claim C4 as stated: on the C4 document the resolver maps
`introduction.md` to the path rooted at `src/test/ref`, not to
`["ref", "Introduction"]`. -/
theorem parse_hierarchy_not_ref_rooted :
    lookupIn [("introduction.md").data] (parse_hierarchy c4Summary [] c4Events) =
      some (("src").data :: ("test").data :: ("ref").data :: [("Introduction").data]) ∧
    lookupIn [("introduction.md").data] (parse_hierarchy c4Summary [] c4Events) ≠
      some [("ref").data, ("Introduction").data] := ⟨by decide, by decide⟩

/-- Claim C4 (amended): on the C4 document the resolver maps
`introduction.md` to `["src","test","ref","Introduction"]`, `a.md` to
`["src","test","ref","A"]`, and `b.md` to `["src","test","ref","A","B"]` —
the hierarchy paths of the claim, but prefixed by the root `src/test/ref`
rather than `ref`. -/
theorem parse_hierarchy_maps_nested_items :
    lookupIn [("introduction.md").data] (parse_hierarchy c4Summary [] c4Events) =
      some (hierRoot ++ [("Introduction").data]) ∧
    lookupIn [("a.md").data] (parse_hierarchy c4Summary [] c4Events) =
      some (hierRoot ++ [("A").data]) ∧
    lookupIn [("b.md").data] (parse_hierarchy c4Summary [] c4Events) =
      some (hierRoot ++ [("A").data, ("B").data]) := ⟨by decide, by decide, by decide⟩

/-- Claim C8: a summary file whose contents do not begin with the expected
fixed opening makes `parse_hierarchy` fail fatally (embedded as `none`) before
producing any mapping. -/
theorem parse_hierarchy_requires_prefix (summary : Str) (summary_dir : List Str)
    (events : List MdEvent) (h : expected_start.isPrefixOf summary = false) :
    parse_hierarchy summary summary_dir events = none := by
  rw [parse_hierarchy, if_neg (by simp [h])]

/-- Witness for claim C8 at a concrete summary text. -/
theorem parse_hierarchy_requires_prefix_witness :
    expected_start.isPrefixOf (("bad summary").data) = false ∧
    parse_hierarchy (("bad summary").data) [] [] = none :=
  ⟨by decide, parse_hierarchy_requires_prefix (("bad summary").data) [] [] (by decide)⟩

end RefDashboard
